import Mathlib

/-!
Verification of the calorie-lookup core of `src/apps.py`.

The program normalizes food names (lower-case, underscore to space, strip
ASCII punctuation, trim whitespace) and resolves a label against a reference
table by three tiers: exact match, substring match, and a difflib
`get_close_matches` fuzzy match with cutoff 0.6, falling back to 200.0.

Strings are modelled as lists of character code points with ASCII semantics
(`str.lower` is modelled on the ASCII letters; the claims and the reference
data are ASCII).  The difflib similarity is the Ratcliff-Obershelp ratio
`2*M/T` computed exactly over ℚ; the executable comparison path uses integer
cross-multiplication, which agrees exactly with the rational ratio (difflib's
autojunk heuristic is inert here: it only activates on strings of length
at least 200).
-/

/-- Python strings, modelled as lists of character code points. -/
abbrev Str := List Nat

/-- Code points of a Lean string literal, used for concrete examples. -/
def ofString (s : String) : Str := s.toList.map Char.toNat

/-- Python `str.lower` on a single code point (ASCII range). -/
def pyLower (c : Nat) : Nat := if 65 ≤ c ∧ c ≤ 90 then c + 32 else c

/-- Membership in Python's `string.punctuation`
(the ASCII codes 33-47, 58-64, 91-96, 123-126). -/
def isPunct (c : Nat) : Bool :=
  decide ((33 ≤ c ∧ c ≤ 47) ∨ (58 ≤ c ∧ c ≤ 64) ∨ (91 ≤ c ∧ c ≤ 96) ∨ (123 ≤ c ∧ c ≤ 126))

/-- Whitespace as stripped by Python `str.strip` (ASCII range):
space (32), tab (9), newline (10), vertical tab (11), form feed (12), carriage return (13). -/
def isSpace (c : Nat) : Bool := decide (c = 32 ∨ (9 ≤ c ∧ c ≤ 13))

/-- The `.lower()` step of the query normalization (src/apps.py line 38). -/
def lowerStr (s : Str) : Str := s.map pyLower

/-- The `.replace("_", " ")` step (src/apps.py line 39): every underscore (95)
becomes a single space (32). -/
def replaceUnderscore (s : Str) : Str := s.map (fun c => if c = 95 then 32 else c)

/-- The `.translate(str.maketrans("", "", string.punctuation))` step
(src/apps.py line 40): delete every ASCII punctuation character. -/
def removePunct (s : Str) : Str := s.filter (fun c => !isPunct c)

/-- The `.strip()` step (src/apps.py line 41): drop leading and trailing whitespace. -/
def pyStrip (s : Str) : Str := List.rdropWhile isSpace (List.dropWhile isSpace s)

/-- The query-side normalization `main_label` of `fallback_lookup`
(src/apps.py lines 37-42): lower-case, underscores to spaces, remove
punctuation, trim. -/
def normalizeStr (s : Str) : Str := pyStrip (removePunct (replaceUnderscore (lowerStr s)))

/-- The table-side normalization of the `food_name` column at load time
(src/apps.py lines 24-30): `.str.lower()`, `.str.replace("_", " ")`,
`.str.translate(...)` deleting `string.punctuation`, `.str.strip()`,
written out as the pandas chain applies it elementwise. -/
def normalizeColumn (s : Str) : Str :=
  List.rdropWhile isSpace (List.dropWhile isSpace
    (((s.map pyLower).map (fun c => if c = 95 then 32 else c)).filter (fun c => !isPunct c)))

/-- A row of the reference table after load-time normalization:
the `normalized_name` column and the `calories_per_100g` column. -/
structure Entry where
  normalized_name : Str
  calories_per_100g : ℚ
deriving DecidableEq, Repr

/-- Python's substring test `s in t` for strings. -/
def isSubstr : Str → Str → Bool
  | s, [] => s.isEmpty
  | s, t@(_ :: t2) => s.isPrefixOf t || isSubstr s t2

/-- Length of the longest common prefix of two code-point lists. -/
def commonLen : Str → Str → Nat
  | a :: as, b :: bs => if a = b then commonLen as bs + 1 else 0
  | _, _ => 0

/-- One step of the longest-matching-block search: at position pair `(i, j)`
record the run starting there if it is strictly longer than the best so far
(CPython `difflib.SequenceMatcher.find_longest_match` keeps the earliest
maximal block: earliest in `a`, then earliest in `b`). -/
def stepJ (a b : Str) (i : Nat) (acc : Nat × Nat × Nat) (j : Nat) : Nat × Nat × Nat :=
  let k := commonLen (a.drop i) (b.drop j)
  if acc.2.2 < k then (i, j, k) else acc

/-- Longest matching block of `a` and `b`: returns `(i, j, k)` with
`a.drop i` and `b.drop j` agreeing on their first `k` entries, `k` maximal,
and ties resolved to the smallest `i`, then the smallest `j` — the block
`find_longest_match` returns (no junk, no autojunk for short strings). -/
def bestMatch (a b : Str) : Nat × Nat × Nat :=
  (List.range a.length).foldl (fun acc i => (List.range b.length).foldl (stepJ a b i) acc)
    (0, 0, 0)

/-- Total size of the matching blocks of `difflib.SequenceMatcher.get_matching_blocks`:
recursively take the longest matching block and recurse on the pieces to its
left and to its right.  The fuel argument only drives structural recursion;
`matchTotal` supplies fuel `a.length + b.length`, which never runs out because
every recursive call strictly decreases the total length. -/
def matchTotalF : Nat → Str → Str → Nat
  | 0, _, _ => 0
  | fuel + 1, a, b =>
    match bestMatch a b with
    | (i, j, k) =>
      if k = 0 then 0
      else k + matchTotalF fuel (a.take i) (b.take j)
             + matchTotalF fuel (a.drop (i + k)) (b.drop (j + k))

/-- Total number of matched elements between `a` and `b` (the `M` of
`SequenceMatcher.ratio`). -/
def matchTotal (a b : Str) : Nat := matchTotalF (a.length + b.length) a b

/-- Numerator and denominator of `SequenceMatcher.ratio`: the ratio is
`2*M / (len(a)+len(b))`, and `1` when both strings are empty
(difflib `_calculate_ratio`). -/
def ratioPair (a b : Str) : Nat × Nat :=
  if a.length + b.length = 0 then (1, 1)
  else (2 * matchTotal a b, a.length + b.length)

/-- The difflib sequence-similarity ratio of `a` and `b`, as an exact rational. -/
def ratio (a b : Str) : ℚ := ((ratioPair a b).1 : ℚ) / ((ratioPair a b).2 : ℚ)

/-- Executable test `ratio a b ≥ 0.6` (the `cutoff=0.6` test of
`get_close_matches`), by cross-multiplication. -/
def ratioGeCutoff (a b : Str) : Bool :=
  decide (3 * (ratioPair a b).2 ≤ 5 * (ratioPair a b).1)

/-- Executable test `ratio a w < ratio b w`, by cross-multiplication. -/
def ratioLtRatio (w a b : Str) : Bool :=
  decide ((ratioPair a w).1 * (ratioPair b w).2 < (ratioPair b w).1 * (ratioPair a w).2)

/-- Python's lexicographic string comparison `a < b` on code points. -/
def strLt : Str → Str → Bool
  | _, [] => false
  | [], _ :: _ => true
  | a :: as, b :: bs => if a < b then true else if b < a then false else strLt as bs

/-- Python's comparison of the `(ratio, name)` pairs that
`heapq.nlargest` orders inside `get_close_matches`: by ratio against the
query `w`, ties broken by the lexicographic order on the names. -/
def fuzzyLt (w a b : Str) : Bool :=
  if ratioLtRatio w a b then true
  else if ratioLtRatio w b a then false
  else strLt a b

/-- Model of `difflib.get_close_matches(word, poss, n=1, cutoff=0.6)`:
keep the candidates whose ratio to `word` is at least 0.6 and return the
one with the greatest `(ratio, name)` pair (the first such on exact ties),
or none when no candidate qualifies. -/
def getCloseMatch (word : Str) (poss : List Str) : Option Str :=
  match poss.filter (fun x => ratioGeCutoff x word) with
  | [] => none
  | h :: t => some (t.foldl (fun best x => if fuzzyLt word best x then x else best) h)

/-- The lookup function `fallback_lookup` of src/apps.py (lines 33-62):
empty label gives no result; otherwise normalize and try exact match,
substring match, fuzzy match, and finally the 200.0 default. -/
def fallback_lookup (label : Str) (table : List Entry) : Option ℚ :=
  if label.isEmpty then none
  else
    let main_label := normalizeStr label
    match table.find? (fun e => e.normalized_name == main_label) with
    | some e => some e.calories_per_100g
    | none =>
      match table.find? (fun e =>
          isSubstr e.normalized_name main_label || isSubstr main_label e.normalized_name) with
      | some e => some e.calories_per_100g
      | none =>
        match getCloseMatch main_label (table.map (fun e => e.normalized_name)) with
        | some best =>
          match table.find? (fun e => e.normalized_name == best) with
          | some e => some e.calories_per_100g
          | none => some 200
        | none => some 200

/-- A reference-table row as built at load time from a raw `food_name`
and its calorie value. -/
def buildEntry (food_name : Str) (cal : ℚ) : Entry :=
  { normalized_name := normalizeColumn food_name, calories_per_100g := cal }


set_option maxRecDepth 20000

/-! ### Helper lemmas: folds, find?, strip -/

/-- Invariant preservation along a left fold. -/
theorem foldl_invariant {α β : Type} (P : α → Prop) (f : α → β → α) :
    ∀ (l : List β) (init : α), P init → (∀ acc x, P acc → x ∈ l → P (f acc x)) →
      P (l.foldl f init)
  | [], _, h0, _ => h0
  | x :: t, init, h0, hstep =>
    foldl_invariant P f t (f init x) (hstep init x h0 (List.mem_cons_self x t))
      (fun acc y hy hmem => hstep acc y hy (List.mem_cons_of_mem x hmem))

/-- Left fold with a constant function returns the initial accumulator. -/
theorem foldl_const {α β : Type} : ∀ (l : List β) (init : α),
    l.foldl (fun acc _ => acc) init = init
  | [], _ => rfl
  | _ :: t, init => foldl_const t init

/-- find? returns the element at the first index satisfying the predicate. -/
theorem find?_first {α : Type} (p : α → Bool) :
    ∀ (l : List α) (i : Nat) (hi : i < l.length),
      p (l.get ⟨i, hi⟩) = true →
      (∀ j (hj : j < l.length), j < i → p (l.get ⟨j, hj⟩) = false) →
      l.find? p = some (l.get ⟨i, hi⟩)
  | x :: t, 0, _, hp, _ => by
    simpa [List.find?_cons] using by rw [show p x = true from hp]
  | x :: t, i + 1, hi, hp, hprev => by
    have hx : p x = false := hprev 0 (by simp) (Nat.succ_pos i)
    have hi2 : i < t.length := Nat.lt_of_succ_lt_succ (by simpa using hi)
    have ih := find?_first p t i hi2 (by simpa using hp)
      (fun j hj hji => by
        simpa using hprev (j + 1) (by simpa using Nat.succ_lt_succ hj) (Nat.succ_lt_succ hji))
    simpa [List.find?_cons, hx] using ih

/-- Elements surviving a strip are elements of the original list. -/
theorem mem_pyStrip {c : Nat} {l : Str} (h : c ∈ pyStrip l) : c ∈ l :=
  (List.dropWhile_sublist isSpace).subset ((List.rdropWhile_prefix isSpace _).subset h)

/-- A prefix of a list fixed by dropWhile is itself fixed by dropWhile. -/
theorem dropWhile_prefix_fixed {p : Nat → Bool} {s m : Str} (hpre : List.IsPrefix s m)
    (hm : List.dropWhile p m = m) : List.dropWhile p s = s := by
  cases s with
  | nil => rfl
  | cons x t =>
    obtain ⟨r, hr⟩ := hpre
    cases m with
    | nil => simp at hr
    | cons y u =>
      have hxy : x = y := by
        have := congrArg List.head? hr
        simpa using this
      subst hxy
      have hpx : p x = false := by
        cases hpx : p x with
        | false => rfl
        | true =>
          rw [List.dropWhile_cons, if_pos hpx] at hm
          have := (List.dropWhile_sublist (l := u) p).length_le
          have := congrArg List.length hm
          simp at this
          omega
      rw [List.dropWhile_cons, if_neg (by simp [hpx])]

/-- Stripping is idempotent. -/
theorem pyStrip_idem (l : Str) : pyStrip (pyStrip l) = pyStrip l := by
  have hdw : List.dropWhile isSpace (List.dropWhile isSpace l) = List.dropWhile isSpace l :=
    List.dropWhile_idempotent isSpace l
  have h1 : List.dropWhile isSpace (pyStrip l) = pyStrip l :=
    dropWhile_prefix_fixed (List.rdropWhile_prefix isSpace _) hdw
  show List.rdropWhile isSpace (List.dropWhile isSpace (pyStrip l)) = pyStrip l
  rw [h1]
  unfold pyStrip
  rw [List.rdropWhile_idempotent]

/-- Mapping a function that fixes every element of a list is the identity. -/
theorem map_fixed {f : Nat → Nat} : ∀ (l : Str), (∀ c ∈ l, f c = c) → l.map f = l
  | [], _ => rfl
  | x :: t, h => by
    simp only [List.map_cons]
    rw [h x (List.mem_cons_self x t), map_fixed t (fun c hc => h c (List.mem_cons_of_mem x hc))]

/-! ### Character-class lemmas for normalization -/

/-- Lowering never produces an upper-case ASCII letter. -/
theorem pyLower_not_upper (c : Nat) : ¬ (65 ≤ pyLower c ∧ pyLower c ≤ 90) := by
  unfold pyLower
  split <;> omega

/-- Lowering fixes code points outside the upper-case ASCII range. -/
theorem pyLower_fixed {c : Nat} (h : ¬ (65 ≤ c ∧ c ≤ 90)) : pyLower c = c := by
  unfold pyLower
  split <;> omega

/-- Characters of a normalized string: no punctuation, no upper-case ASCII
letter, no underscore. -/
theorem mem_normalizeStr {c : Nat} {s : Str} (h : c ∈ normalizeStr s) :
    isPunct c = false ∧ ¬ (65 ≤ c ∧ c ≤ 90) ∧ c ≠ 95 := by
  unfold normalizeStr at h
  have h1 := mem_pyStrip h
  unfold removePunct at h1
  have h2 := List.mem_filter.mp h1
  have hpunct : isPunct c = false := by simpa using h2.2
  have h3 : c ∈ replaceUnderscore (lowerStr s) := h2.1
  unfold replaceUnderscore lowerStr at h3
  rw [List.map_map] at h3
  obtain ⟨d, _, hd⟩ := List.mem_map.mp h3
  simp only [Function.comp] at hd
  refine ⟨hpunct, ?_, ?_⟩
  · rw [← hd]
    split
    · omega
    · exact pyLower_not_upper d
  · rw [← hd]
    split
    · omega
    · intro h95
      simp_all

/-- Normalized strings are fixed by the lower-casing stage. -/
theorem lowerStr_normalizeStr (s : Str) : lowerStr (normalizeStr s) = normalizeStr s :=
  map_fixed _ (fun _ hc => pyLower_fixed (mem_normalizeStr hc).2.1)

/-- Normalized strings are fixed by the underscore-replacement stage. -/
theorem replaceUnderscore_normalizeStr (s : Str) :
    replaceUnderscore (normalizeStr s) = normalizeStr s :=
  map_fixed _ (fun _ hc => if_neg (mem_normalizeStr hc).2.2)

/-- Normalized strings are fixed by the punctuation-removal stage. -/
theorem removePunct_normalizeStr (s : Str) :
    removePunct (normalizeStr s) = normalizeStr s := by
  unfold removePunct
  rw [List.filter_eq_self]
  intro c hc
  simp [(mem_normalizeStr hc).1]

/-- Normalization is idempotent. -/
theorem normalizeStr_idem (s : Str) : normalizeStr (normalizeStr s) = normalizeStr s := by
  show pyStrip (removePunct (replaceUnderscore (lowerStr (normalizeStr s)))) = normalizeStr s
  rw [lowerStr_normalizeStr, replaceUnderscore_normalizeStr, removePunct_normalizeStr]
  show pyStrip (pyStrip (removePunct (replaceUnderscore (lowerStr s)))) = normalizeStr s
  rw [pyStrip_idem]
  rfl

/-- Replacing an interior underscore by a space does not change the normalized
form: underscores become spaces, they do not vanish. -/
theorem normalizeStr_underscore_space (xs ys : Str) :
    normalizeStr (xs ++ 95 :: ys) = normalizeStr (xs ++ 32 :: ys) := by
  unfold normalizeStr lowerStr replaceUnderscore
  rw [List.map_append, List.map_append, List.map_append, List.map_append]
  norm_num [pyLower]

/-! ### Lexicographic order on code-point strings -/

/-- strLt is irreflexive. -/
theorem strLt_irrefl : ∀ a : Str, strLt a a = false
  | [] => rfl
  | x :: t => by
    simp only [strLt]
    rw [if_neg (lt_irrefl x), if_neg (lt_irrefl x)]
    exact strLt_irrefl t

/-- Unfolding of strLt on two nonempty strings. -/
theorem strLt_cons_iff (x y : Nat) (xs ys : Str) :
    strLt (x :: xs) (y :: ys) = true ↔ (x < y ∨ (x = y ∧ strLt xs ys = true)) := by
  simp only [strLt]
  by_cases hxy : x < y
  · simp [hxy]
  · rw [if_neg hxy]
    by_cases hyx : y < x
    · rw [if_pos hyx]
      constructor
      · intro h
        exact absurd h (by simp)
      · intro h
        rcases h with h | ⟨h, _⟩ <;> omega
    · have hxe : x = y := by omega
      rw [if_neg hyx]
      constructor
      · intro h
        exact Or.inr ⟨hxe, h⟩
      · intro h
        rcases h with h | ⟨_, h⟩
        · omega
        · exact h

/-- strLt is transitive. -/
theorem strLt_trans : ∀ (a b c : Str), strLt a b = true → strLt b c = true → strLt a c = true
  | _, [], _, h1, _ => by simp [strLt] at h1
  | _, _ :: _, [], _, h2 => by simp [strLt] at h2
  | [], _ :: _, _ :: _, _, _ => by simp [strLt]
  | x :: xs, y :: ys, z :: zs, h1, h2 => by
    rw [strLt_cons_iff] at h1 h2 ⊢
    rcases h1 with h1 | ⟨rfl, h1⟩
    · rcases h2 with h2 | ⟨rfl, h2⟩
      · exact Or.inl (lt_trans h1 h2)
      · exact Or.inl h1
    · rcases h2 with h2 | ⟨rfl, h2⟩
      · exact Or.inl h2
      · exact Or.inr ⟨rfl, strLt_trans xs ys zs h1 h2⟩

/-- Two strings neither of which is below the other are equal. -/
theorem strLt_conn : ∀ (a b : Str), strLt a b = false → strLt b a = false → a = b
  | [], [], _, _ => rfl
  | [], _ :: _, h1, _ => by simp [strLt] at h1
  | _ :: _, [], _, h2 => by simp [strLt] at h2
  | x :: xs, y :: ys, h1, h2 => by
    have hx : ¬ (x < y ∨ (x = y ∧ strLt xs ys = true)) := by
      rw [← strLt_cons_iff]
      simp [h1]
    have hy : ¬ (y < x ∨ (y = x ∧ strLt ys xs = true)) := by
      rw [← strLt_cons_iff]
      simp [h2]
    push_neg at hx hy
    have hxy : x = y := by
      have := hx.1
      have := hy.1
      omega
    subst hxy
    have e1 : strLt xs ys = false := by
      have := hx.2 rfl
      cases h : strLt xs ys <;> simp_all
    have e2 : strLt ys xs = false := by
      have := hy.2 rfl
      cases h : strLt ys xs <;> simp_all
    rw [strLt_conn xs ys e1 e2]

/-! ### Bridges between the rational ratio and the cross-multiplied tests -/

/-- The ratio denominator is positive. -/
theorem ratioPair_den_pos (a b : Str) : 0 < (ratioPair a b).2 := by
  unfold ratioPair
  split
  · norm_num
  · dsimp only
    omega

/-- The cross-multiplied comparison agrees with the rational comparison. -/
theorem ratio_lt_iff (w a b : Str) :
    (ratio a w < ratio b w) ↔ ratioLtRatio w a b = true := by
  have ha := ratioPair_den_pos a w
  have hb := ratioPair_den_pos b w
  unfold ratio ratioLtRatio
  rw [div_lt_div_iff₀ (by exact_mod_cast ha) (by exact_mod_cast hb), decide_eq_true_eq]
  constructor
  · intro h
    exact_mod_cast h
  · intro h
    exact_mod_cast h

/-- The cross-multiplied cutoff test agrees with `ratio ≥ 3/5`. -/
theorem ratio_ge_cutoff_iff (a b : Str) :
    ((3 : ℚ)/5 ≤ ratio a b) ↔ ratioGeCutoff a b = true := by
  have hd := ratioPair_den_pos a b
  unfold ratio ratioGeCutoff
  rw [div_le_div_iff₀ (by norm_num) (by exact_mod_cast hd), decide_eq_true_eq]
  constructor
  · intro h
    have h2 : ((3 * (ratioPair a b).2 : Nat) : ℚ) ≤ ((5 * (ratioPair a b).1 : Nat) : ℚ) := by
      push_cast
      linarith
    exact_mod_cast h2
  · intro h
    have h2 : ((3 * (ratioPair a b).2 : Nat) : ℚ) ≤ ((5 * (ratioPair a b).1 : Nat) : ℚ) := by
      exact_mod_cast h
    push_cast at h2
    linarith

/-! ### Order lemmas for the (ratio, name) comparison -/

/-- Introduction rule for fuzzyLt from the rational characterization. -/
theorem fuzzyLt_intro {w a b : Str}
    (h : ratio a w < ratio b w ∨ (ratio a w = ratio b w ∧ strLt a b = true)) :
    fuzzyLt w a b = true := by
  unfold fuzzyLt
  rcases h with h | ⟨he, hs⟩
  · rw [if_pos ((ratio_lt_iff w a b).mp h)]
  · have h1 : ¬ ratioLtRatio w a b = true := fun hc =>
      absurd ((ratio_lt_iff w a b).mpr hc) (by rw [he]; exact lt_irrefl _)
    have h2 : ¬ ratioLtRatio w b a = true := fun hc =>
      absurd ((ratio_lt_iff w b a).mpr hc) (by rw [he]; exact lt_irrefl _)
    rw [if_neg h1, if_neg h2]
    exact hs

/-- Elimination rule for fuzzyLt into the rational characterization. -/
theorem fuzzyLt_eq_true_elim {w a b : Str} (h : fuzzyLt w a b = true) :
    ratio a w < ratio b w ∨ (ratio a w = ratio b w ∧ strLt a b = true) := by
  unfold fuzzyLt at h
  by_cases h1 : ratioLtRatio w a b = true
  · exact Or.inl ((ratio_lt_iff w a b).mpr h1)
  · rw [if_neg h1] at h
    by_cases h2 : ratioLtRatio w b a = true
    · rw [if_pos h2] at h
      exact absurd h (by simp)
    · rw [if_neg h2] at h
      have hab : ¬ ratio a w < ratio b w := fun hc => h1 ((ratio_lt_iff w a b).mp hc)
      have hba : ¬ ratio b w < ratio a w := fun hc => h2 ((ratio_lt_iff w b a).mp hc)
      exact Or.inr ⟨le_antisymm (not_lt.mp hba) (not_lt.mp hab), h⟩

/-- What a failed fuzzyLt comparison says about ratios and names. -/
theorem fuzzyLt_false_elim {w a b : Str} (h : fuzzyLt w a b = false) :
    ratio b w ≤ ratio a w ∧ (ratio a w = ratio b w → strLt a b = false) := by
  constructor
  · by_contra hc
    rw [fuzzyLt_intro (Or.inl (not_le.mp hc))] at h
    exact absurd h (by simp)
  · intro he
    cases hs : strLt a b with
    | false => rfl
    | true =>
      rw [fuzzyLt_intro (Or.inr ⟨he, hs⟩)] at h
      exact absurd h (by simp)

/-- fuzzyLt is irreflexive. -/
theorem fuzzyLt_irrefl (w a : Str) : fuzzyLt w a a = false := by
  cases h : fuzzyLt w a a with
  | false => rfl
  | true =>
    rcases fuzzyLt_eq_true_elim h with hc | ⟨_, hc⟩
    · exact absurd hc (lt_irrefl _)
    · rw [strLt_irrefl] at hc
      exact absurd hc (by simp)

/-- fuzzyLt is transitive. -/
theorem fuzzyLt_trans {w a b c : Str} (h1 : fuzzyLt w a b = true) (h2 : fuzzyLt w b c = true) :
    fuzzyLt w a c = true := by
  rcases fuzzyLt_eq_true_elim h1 with hA | ⟨hA, sA⟩ <;>
    rcases fuzzyLt_eq_true_elim h2 with hB | ⟨hB, sB⟩
  · exact fuzzyLt_intro (Or.inl (lt_trans hA hB))
  · exact fuzzyLt_intro (Or.inl (hB ▸ hA))
  · exact fuzzyLt_intro (Or.inl (hA ▸ hB))
  · exact fuzzyLt_intro (Or.inr ⟨hA.trans hB, strLt_trans a b c sA sB⟩)

/-- Failed fuzzyLt comparisons compose. -/
theorem fuzzyLt_negtrans {w a b c : Str} (h1 : fuzzyLt w a b = false)
    (h2 : fuzzyLt w b c = false) : fuzzyLt w a c = false := by
  cases hac : fuzzyLt w a c with
  | false => rfl
  | true =>
    exfalso
    obtain ⟨hba, hsab⟩ := fuzzyLt_false_elim h1
    obtain ⟨hcb, hsbc⟩ := fuzzyLt_false_elim h2
    rcases fuzzyLt_eq_true_elim hac with hA | ⟨hA, sA⟩
    · exact absurd hA (not_lt.mpr (hcb.trans hba))
    · have hab : ratio a w = ratio b w := le_antisymm (hA ▸ hcb) hba
      have hbc : ratio b w = ratio c w := by rw [← hab, hA]
      have sab : strLt a b = false := hsab hab
      have sbc : strLt b c = false := hsbc hbc
      by_cases hne : a = b
      · subst hne
        rw [sA] at sbc
        exact absurd sbc (by simp)
      · have sba : strLt b a = true := by
          cases h : strLt b a with
          | true => rfl
          | false => exact absurd (strLt_conn a b sab h) hne
        have : strLt b c = true := strLt_trans b a c sba sA
        rw [this] at sbc
        exact absurd sbc (by simp)

/-- Two names neither of which compares below the other are equal. -/
theorem fuzzyLt_conn {w a b : Str} (h1 : fuzzyLt w a b = false) (h2 : fuzzyLt w b a = false) :
    a = b := by
  obtain ⟨hba, hsab⟩ := fuzzyLt_false_elim h1
  obtain ⟨hab, hsba⟩ := fuzzyLt_false_elim h2
  have he : ratio a w = ratio b w := le_antisymm hab hba
  exact strLt_conn a b (hsab he) (hsba he.symm)

/-! ### The fold inside getCloseMatch picks the maximal (ratio, name) pair -/

/-- The fold result is one of the candidates. -/
theorem foldlPick_mem (w : Str) : ∀ (t : List Str) (h : Str),
    t.foldl (fun best y => if fuzzyLt w best y then y else best) h ∈ h :: t
  | [], h => List.mem_cons_self h []
  | x :: t, h => by
    have ih := foldlPick_mem w t (if fuzzyLt w h x then x else h)
    simp only [List.foldl_cons]
    rcases List.mem_cons.mp ih with h1 | h1
    · rw [h1]
      split
      · exact List.mem_cons_of_mem _ (List.mem_cons_self _ _)
      · exact List.mem_cons_self _ _
    · exact List.mem_cons_of_mem _ (List.mem_cons_of_mem _ h1)

/-- No candidate compares above the fold result. -/
theorem foldlPick_max (w : Str) : ∀ (t : List Str) (h m : Str), m ∈ h :: t →
    fuzzyLt w (t.foldl (fun best y => if fuzzyLt w best y then y else best) h) m = false
  | [], h, m, hm => by
    have he : m = h := by simpa using hm
    subst he
    exact fuzzyLt_irrefl w m
  | x :: t, h, m, hm => by
    have hstep : ∀ m2, m2 ∈ (if fuzzyLt w h x then x else h) :: t →
        fuzzyLt w (t.foldl (fun best y => if fuzzyLt w best y then y else best)
          (if fuzzyLt w h x then x else h)) m2 = false :=
      fun m2 hm2 => foldlPick_max w t (if fuzzyLt w h x then x else h) m2 hm2
    simp only [List.foldl_cons]
    rcases List.mem_cons.mp hm with he | hm2
    · subst he
      by_cases hx : fuzzyLt w m x = true
      · rw [if_pos hx] at hstep ⊢
        have hrx : fuzzyLt w
            (t.foldl (fun best y => if fuzzyLt w best y then y else best) x) x = false :=
          hstep x (List.mem_cons_self x t)
        cases hrm : fuzzyLt w
            (t.foldl (fun best y => if fuzzyLt w best y then y else best) x) m with
        | false => rfl
        | true =>
          rw [fuzzyLt_trans hrm hx] at hrx
          exact absurd hrx (by simp)
      · rw [if_neg hx] at hstep ⊢
        exact hstep m (List.mem_cons_self m t)
    · rcases List.mem_cons.mp hm2 with he | hm3
      · subst he
        by_cases hx : fuzzyLt w h m = true
        · rw [if_pos hx] at hstep ⊢
          exact hstep m (List.mem_cons_self m t)
        · rw [if_neg hx] at hstep ⊢
          have hxf : fuzzyLt w h m = false := by
            cases hc : fuzzyLt w h m
            · rfl
            · exact absurd hc hx
          have hrh : fuzzyLt w
              (t.foldl (fun best y => if fuzzyLt w best y then y else best) h) h = false :=
            hstep h (List.mem_cons_self h t)
          exact fuzzyLt_negtrans hrh hxf
      · by_cases hx : fuzzyLt w h x = true
        · rw [if_pos hx] at hstep ⊢
          exact hstep m (List.mem_cons_of_mem _ hm3)
        · rw [if_neg hx] at hstep ⊢
          exact hstep m (List.mem_cons_of_mem _ hm3)

/-- getCloseMatch returns a candidate that qualifies at the cutoff and is
maximal in the (ratio, name) order. -/
theorem getCloseMatch_eq (word : Str) (poss : List Str) (best : Str)
    (hmem : best ∈ poss) (hcut : ratioGeCutoff best word = true)
    (hmax : ∀ m ∈ poss, ratioGeCutoff m word = true → fuzzyLt word best m = false) :
    getCloseMatch word poss = some best := by
  unfold getCloseMatch
  have hbq : best ∈ poss.filter (fun x => ratioGeCutoff x word) :=
    List.mem_filter.mpr ⟨hmem, hcut⟩
  cases hq : poss.filter (fun x => ratioGeCutoff x word) with
  | nil =>
    rw [hq] at hbq
    simp at hbq
  | cons h t =>
    rw [hq] at hbq
    have hrmem : t.foldl (fun best y => if fuzzyLt word best y then y else best) h ∈ h :: t :=
      foldlPick_mem word t h
    have hrq : t.foldl (fun best y => if fuzzyLt word best y then y else best) h
        ∈ poss.filter (fun x => ratioGeCutoff x word) := by
      rw [hq]
      exact hrmem
    have hrp := List.mem_filter.mp hrq
    have h1 : fuzzyLt word
        (t.foldl (fun best y => if fuzzyLt word best y then y else best) h) best = false :=
      foldlPick_max word t h best hbq
    have h2 : fuzzyLt word best
        (t.foldl (fun best y => if fuzzyLt word best y then y else best) h) = false :=
      hmax _ hrp.1 (by simpa using hrp.2)
    exact congrArg some (fuzzyLt_conn h1 h2)

/-- When no candidate qualifies at the cutoff, getCloseMatch returns none. -/
theorem getCloseMatch_none (word : Str) (poss : List Str)
    (h : ∀ m ∈ poss, ratioGeCutoff m word = false) :
    getCloseMatch word poss = none := by
  unfold getCloseMatch
  have hq : poss.filter (fun x => ratioGeCutoff x word) = [] := by
    rw [List.filter_eq_nil_iff]
    intro x hx
    simp [h x hx]
  rw [hq]

/-! ### Tier-level reductions of fallback_lookup -/

/-- Exact tier: a hit in the first find? decides the lookup. -/
theorem lookup_exact_tier (label : Str) (table : List Entry) (hne : label ≠ []) (e : Entry)
    (hfind : table.find? (fun e2 => e2.normalized_name == normalizeStr label) = some e) :
    fallback_lookup label table = some e.calories_per_100g := by
  obtain ⟨x, xs, rfl⟩ := List.exists_cons_of_ne_nil hne
  simp only [fallback_lookup, List.isEmpty_cons, Bool.false_eq_true, if_false, hfind]

/-- Substring tier: with no exact hit, a substring hit decides the lookup. -/
theorem lookup_substring_tier (label : Str) (table : List Entry) (hne : label ≠ [])
    (hex : table.find? (fun e2 => e2.normalized_name == normalizeStr label) = none) (e : Entry)
    (hfind : table.find? (fun e2 =>
        isSubstr e2.normalized_name (normalizeStr label)
          || isSubstr (normalizeStr label) e2.normalized_name) = some e) :
    fallback_lookup label table = some e.calories_per_100g := by
  obtain ⟨x, xs, rfl⟩ := List.exists_cons_of_ne_nil hne
  simp only [fallback_lookup, List.isEmpty_cons, Bool.false_eq_true, if_false, hex, hfind]

/-- Fuzzy tier: with no exact or substring hit, the close-match result decides
the lookup through one more find?. -/
theorem lookup_fuzzy_tier (label : Str) (table : List Entry) (hne : label ≠ [])
    (hex : table.find? (fun e2 => e2.normalized_name == normalizeStr label) = none)
    (hsub : table.find? (fun e2 =>
        isSubstr e2.normalized_name (normalizeStr label)
          || isSubstr (normalizeStr label) e2.normalized_name) = none)
    (best : Str)
    (hclose : getCloseMatch (normalizeStr label) (table.map (fun e2 => e2.normalized_name))
        = some best)
    (e : Entry) (hfind : table.find? (fun e2 => e2.normalized_name == best) = some e) :
    fallback_lookup label table = some e.calories_per_100g := by
  obtain ⟨x, xs, rfl⟩ := List.exists_cons_of_ne_nil hne
  simp only [fallback_lookup, List.isEmpty_cons, Bool.false_eq_true, if_false, hex, hsub,
    hclose, hfind]

/-- Default tier: with no hit in any tier, the lookup returns 200. -/
theorem lookup_default_tier (label : Str) (table : List Entry) (hne : label ≠ [])
    (hex : table.find? (fun e2 => e2.normalized_name == normalizeStr label) = none)
    (hsub : table.find? (fun e2 =>
        isSubstr e2.normalized_name (normalizeStr label)
          || isSubstr (normalizeStr label) e2.normalized_name) = none)
    (hclose : getCloseMatch (normalizeStr label) (table.map (fun e2 => e2.normalized_name))
        = none) :
    fallback_lookup label table = some 200 := by
  obtain ⟨x, xs, rfl⟩ := List.exists_cons_of_ne_nil hne
  simp only [fallback_lookup, List.isEmpty_cons, Bool.false_eq_true, if_false, hex, hsub, hclose]

/-- strLt is asymmetric. -/
theorem strLt_asymm {a b : Str} (h : strLt a b = true) : strLt b a = false := by
  cases hba : strLt b a with
  | false => rfl
  | true =>
    have := strLt_trans a b a h hba
    rw [strLt_irrefl] at this
    exact absurd this (by simp)

/-- The cross-multiplied equality test agrees with rational-ratio equality. -/
theorem ratio_eq_iff (w a b : Str) :
    (ratio a w = ratio b w) ↔
      (ratioPair a w).1 * (ratioPair b w).2 = (ratioPair b w).1 * (ratioPair a w).2 := by
  have ha := ratioPair_den_pos a w
  have hb := ratioPair_den_pos b w
  unfold ratio
  rw [div_eq_div_iff (by positivity) (by positivity)]
  constructor
  · intro h
    exact_mod_cast h
  · intro h
    exact_mod_cast h

/-- A failed cutoff test means the ratio is below 3/5. -/
theorem ratio_lt_cutoff {a b : Str} (h : ratioGeCutoff a b = false) :
    ratio a b < (3 : ℚ)/5 := by
  by_contra hc
  have := (ratio_ge_cutoff_iff a b).mp (not_lt.mp hc)
  rw [this] at h
  exact absurd h (by simp)

/-- Fuzzy tier returning a name that no entry bears falls back to 200
(unreachable for names drawn from the table, modelled for totality). -/
theorem lookup_fuzzy_missing_tier (label : Str) (table : List Entry) (hne : label ≠ [])
    (hex : table.find? (fun e2 => e2.normalized_name == normalizeStr label) = none)
    (hsub : table.find? (fun e2 =>
        isSubstr e2.normalized_name (normalizeStr label)
          || isSubstr (normalizeStr label) e2.normalized_name) = none)
    (best : Str)
    (hclose : getCloseMatch (normalizeStr label) (table.map (fun e2 => e2.normalized_name))
        = some best)
    (hfind : table.find? (fun e2 => e2.normalized_name == best) = none) :
    fallback_lookup label table = some 200 := by
  obtain ⟨x, xs, rfl⟩ := List.exists_cons_of_ne_nil hne
  simp only [fallback_lookup, List.isEmpty_cons, Bool.false_eq_true, if_false, hex, hsub,
    hclose, hfind]

/-- The empty string is a substring of every string. -/
theorem isSubstr_nil_left : ∀ t : Str, isSubstr [] t = true := by
  intro t
  cases t <;> rfl

/-! ### The claims -/

/-- C1: for a non-empty label, if no entry matches the normalized label
exactly, no entry's name is a substring of the normalized label or vice
versa, and no entry's name has similarity at least 0.6 to the normalized
label, then lookup returns exactly 200. -/
theorem claim_C1_default_fallback (label : Str) (table : List Entry) (hne : label ≠ [])
    (hex : ∀ e ∈ table, e.normalized_name ≠ normalizeStr label)
    (hsub : ∀ e ∈ table, isSubstr e.normalized_name (normalizeStr label) = false ∧
        isSubstr (normalizeStr label) e.normalized_name = false)
    (hfuz : ∀ e ∈ table, ratio e.normalized_name (normalizeStr label) < (3 : ℚ)/5) :
    fallback_lookup label table = some 200 := by
  apply lookup_default_tier label table hne
  · rw [List.find?_eq_none]
    intro e he
    simp [hex e he]
  · rw [List.find?_eq_none]
    intro e he
    simp [(hsub e he).1, (hsub e he).2]
  · apply getCloseMatch_none
    intro m hm
    obtain ⟨e, he, rfl⟩ := List.mem_map.mp hm
    cases hc : ratioGeCutoff e.normalized_name (normalizeStr label) with
    | false => rfl
    | true =>
      exact absurd ((ratio_ge_cutoff_iff _ _).mpr hc) (not_le.mpr (hfuz e he))

/-- C1 witness: the label "qq" against a pizza-only table hits no tier and
returns 200. -/
theorem claim_C1_witness :
    fallback_lookup (ofString "qq") [⟨ofString "pizza", 266⟩] = some 200 :=
  claim_C1_default_fallback (ofString "qq") [⟨ofString "pizza", 266⟩]
    (by decide)
    (by decide)
    (by decide)
    (by
      intro e he
      rw [List.mem_singleton] at he
      subst he
      exact ratio_lt_cutoff (by decide))

/-- C2: lookup returns the no-result sentinel exactly on the empty label;
for every non-empty label and every table (the empty table included) it
returns some numeric value. -/
theorem claim_C2_totality (label : Str) (table : List Entry) :
    (fallback_lookup label table = none ↔ label = []) ∧
      (label ≠ [] → ∃ q : ℚ, fallback_lookup label table = some q) := by
  have hsome : label ≠ [] → ∃ q : ℚ, fallback_lookup label table = some q := by
    intro hne
    rcases h1 : table.find? (fun e2 => e2.normalized_name == normalizeStr label) with _ | e
    rotate_left
    · exact ⟨e.calories_per_100g, lookup_exact_tier label table hne e h1⟩
    rcases h2 : table.find? (fun e2 =>
        isSubstr e2.normalized_name (normalizeStr label)
          || isSubstr (normalizeStr label) e2.normalized_name) with _ | e
    rotate_left
    · exact ⟨e.calories_per_100g, lookup_substring_tier label table hne h1 e h2⟩
    rcases h3 : getCloseMatch (normalizeStr label) (table.map (fun e2 => e2.normalized_name))
      with _ | best
    rotate_left
    · rcases h4 : table.find? (fun e2 => e2.normalized_name == best) with _ | e
      rotate_left
      · exact ⟨e.calories_per_100g, lookup_fuzzy_tier label table hne h1 h2 best h3 e h4⟩
      · exact ⟨200, lookup_fuzzy_missing_tier label table hne h1 h2 best h3 h4⟩
    · exact ⟨200, lookup_default_tier label table hne h1 h2 h3⟩
  constructor
  · constructor
    · intro h
      by_contra hne
      obtain ⟨q, hq⟩ := hsome hne
      rw [hq] at h
      exact absurd h (by simp)
    · intro h
      subst h
      rfl
  · exact hsome

/-- C2 witness: a non-empty label against the empty table yields a numeric
result, and the none-result condition is equivalent to emptiness. -/
theorem claim_C2_witness :
    (fallback_lookup (ofString "pizza") [] = none ↔ ofString "pizza" = []) ∧
      ∃ q : ℚ, fallback_lookup (ofString "pizza") [] = some q :=
  ⟨(claim_C2_totality (ofString "pizza") []).1,
    (claim_C2_totality (ofString "pizza") []).2 (by decide)⟩

/-- C3: the exact tier returns the calories of the first entry in table
order whose normalized name equals the normalized query. -/
theorem claim_C3_exact_first (label : Str) (table : List Entry) (hne : label ≠ [])
    (i : Nat) (hi : i < table.length)
    (hmatch : (table.get ⟨i, hi⟩).normalized_name = normalizeStr label)
    (hfirst : ∀ j (hj : j < table.length), j < i →
        (table.get ⟨j, hj⟩).normalized_name ≠ normalizeStr label) :
    fallback_lookup label table = some (table.get ⟨i, hi⟩).calories_per_100g := by
  apply lookup_exact_tier label table hne
  apply find?_first
  · simp only [beq_iff_eq]
    exact hmatch
  · intro j hj hji
    simp only [beq_eq_false_iff_ne, ne_eq]
    exact hfirst j hj hji

/-- C3 witness: lookup "Pizza!" on [("pizza", 266), ("apple pie", 237)]
matches the first entry exactly and returns 266. -/
theorem claim_C3_witness :
    fallback_lookup (ofString "Pizza!") [⟨ofString "pizza", 266⟩, ⟨ofString "apple pie", 237⟩]
      = some 266 :=
  claim_C3_exact_first (ofString "Pizza!")
    [⟨ofString "pizza", 266⟩, ⟨ofString "apple pie", 237⟩]
    (by decide) 0 (by decide) (by decide)
    (fun j hj hji => absurd hji (Nat.not_lt_zero j))

/-- C4: with no exact match anywhere, the substring tier returns the calories
of the first entry (in table order) whose name is a substring of the
normalized query or of which the normalized query is a substring. -/
theorem claim_C4_substring_first (label : Str) (table : List Entry) (hne : label ≠ [])
    (hex : ∀ e ∈ table, e.normalized_name ≠ normalizeStr label)
    (i : Nat) (hi : i < table.length)
    (hmatch : isSubstr (table.get ⟨i, hi⟩).normalized_name (normalizeStr label) = true ∨
        isSubstr (normalizeStr label) (table.get ⟨i, hi⟩).normalized_name = true)
    (hfirst : ∀ j (hj : j < table.length), j < i →
        isSubstr (table.get ⟨j, hj⟩).normalized_name (normalizeStr label) = false ∧
        isSubstr (normalizeStr label) (table.get ⟨j, hj⟩).normalized_name = false) :
    fallback_lookup label table = some (table.get ⟨i, hi⟩).calories_per_100g := by
  apply lookup_substring_tier label table hne
  · rw [List.find?_eq_none]
    intro e he
    simp [hex e he]
  · apply find?_first
    · rcases hmatch with h | h
      · rw [Bool.or_eq_true]
        exact Or.inl h
      · rw [Bool.or_eq_true]
        exact Or.inr h
    · intro j hj hji
      exact Bool.or_eq_false_iff.mpr ⟨(hfirst j hj hji).1, (hfirst j hj hji).2⟩

/-- C4 witness: lookup "pepperoni pizza" on [("pizza", 266), ("apple pie",
237)] hits the substring tier on the first entry and returns 266. -/
theorem claim_C4_witness :
    fallback_lookup (ofString "pepperoni pizza")
      [⟨ofString "pizza", 266⟩, ⟨ofString "apple pie", 237⟩] = some 266 :=
  claim_C4_substring_first (ofString "pepperoni pizza")
    [⟨ofString "pizza", 266⟩, ⟨ofString "apple pie", 237⟩]
    (by decide) (by decide) 0 (by decide) (Or.inl (by decide))
    (fun j hj hji => absurd hji (Nat.not_lt_zero j))

/-- C5 counterexample: query "abc" against the table [("abd", 1), ("abe", 2)].
Both names tie at similarity 2/3 (at least 0.6), no exact or substring tier
fires, the first table entry is "abd" with calories 1, yet lookup returns the
calories 2 of "abe": the tie is broken toward the lexicographically greater
name, not toward table order as claimed. -/
theorem claim_C5_counterexample :
    ratio (ofString "abd") (normalizeStr (ofString "abc"))
        = ratio (ofString "abe") (normalizeStr (ofString "abc")) ∧
      (3 : ℚ)/5 ≤ ratio (ofString "abd") (normalizeStr (ofString "abc")) ∧
      (∀ e ∈ [Entry.mk (ofString "abd") 1, Entry.mk (ofString "abe") 2],
          e.normalized_name ≠ normalizeStr (ofString "abc") ∧
          isSubstr e.normalized_name (normalizeStr (ofString "abc")) = false ∧
          isSubstr (normalizeStr (ofString "abc")) e.normalized_name = false) ∧
      fallback_lookup (ofString "abc")
          [Entry.mk (ofString "abd") 1, Entry.mk (ofString "abe") 2] = some 2 ∧
      (2 : ℚ) ≠ 1 := by
  have h1 : ratioPair (ofString "abd") (normalizeStr (ofString "abc")) = (4, 6) := by decide
  have h2 : ratioPair (ofString "abe") (normalizeStr (ofString "abc")) = (4, 6) := by decide
  refine ⟨?_, ?_, by decide, by decide, by norm_num⟩
  · unfold ratio
    rw [h1, h2]
  · unfold ratio
    rw [h1]
    norm_num

/-- C5 amended: when the exact and substring tiers fail, lookup returns the
calories of the first table entry bearing the qualifying candidate name that
is maximal in the (similarity, lexicographic-name) order; ties among equally
similar candidates are broken toward the lexicographically greatest name. -/
theorem claim_C5_fuzzy_tier (label : Str) (table : List Entry) (hne : label ≠ [])
    (hex : ∀ e ∈ table, e.normalized_name ≠ normalizeStr label)
    (hsub : ∀ e ∈ table, isSubstr e.normalized_name (normalizeStr label) = false ∧
        isSubstr (normalizeStr label) e.normalized_name = false)
    (best : Str) (hbmem : best ∈ table.map (fun e2 => e2.normalized_name))
    (hbcut : (3 : ℚ)/5 ≤ ratio best (normalizeStr label))
    (hbmax : ∀ m ∈ table.map (fun e2 => e2.normalized_name),
        (3 : ℚ)/5 ≤ ratio m (normalizeStr label) →
        ratio m (normalizeStr label) < ratio best (normalizeStr label) ∨
          (ratio m (normalizeStr label) = ratio best (normalizeStr label) ∧
            (strLt m best = true ∨ m = best)))
    (i : Nat) (hi : i < table.length)
    (hname : (table.get ⟨i, hi⟩).normalized_name = best)
    (hfirst : ∀ j (hj : j < table.length), j < i →
        (table.get ⟨j, hj⟩).normalized_name ≠ best) :
    fallback_lookup label table = some (table.get ⟨i, hi⟩).calories_per_100g := by
  apply lookup_fuzzy_tier label table hne ?hex ?hsub best ?hclose
  case hex =>
    rw [List.find?_eq_none]
    intro e he
    simp [hex e he]
  case hsub =>
    rw [List.find?_eq_none]
    intro e he
    simp [(hsub e he).1, (hsub e he).2]
  case hclose =>
    apply getCloseMatch_eq _ _ best hbmem ((ratio_ge_cutoff_iff _ _).mp hbcut)
    intro m hm hcut
    have hm2 := hbmax m hm ((ratio_ge_cutoff_iff _ _).mpr hcut)
    cases hf : fuzzyLt (normalizeStr label) best m with
    | false => rfl
    | true =>
      exfalso
      rcases fuzzyLt_eq_true_elim hf with hlt | ⟨heq, hstr⟩
      · rcases hm2 with h | ⟨h, _⟩
        · exact absurd hlt (not_lt.mpr h.le)
        · exact absurd hlt (by rw [h]; exact lt_irrefl _)
      · rcases hm2 with h | ⟨_, hs⟩
        · exact absurd h (by rw [heq]; exact lt_irrefl _)
        · rcases hs with hs | he2
          · rw [strLt_asymm hs] at hstr
            exact absurd hstr (by simp)
          · subst he2
            rw [strLt_irrefl] at hstr
            exact absurd hstr (by simp)
  · apply find?_first
    · simp only [beq_iff_eq]
      exact hname
    · intro j hj hji
      simp only [beq_eq_false_iff_ne, ne_eq]
      exact hfirst j hj hji

/-- C5 witness for the amended claim: on the tie table the maximal candidate
is "abe" (lexicographically greatest among the equally similar), and lookup
returns its calories 2. -/
theorem claim_C5_witness :
    fallback_lookup (ofString "abc")
      [Entry.mk (ofString "abd") 1, Entry.mk (ofString "abe") 2] = some 2 :=
  claim_C5_fuzzy_tier (ofString "abc")
    [Entry.mk (ofString "abd") 1, Entry.mk (ofString "abe") 2]
    (by decide) (by decide) (by decide)
    (ofString "abe") (by decide)
    ((ratio_ge_cutoff_iff _ _).mpr (by decide))
    (by
      intro m hm hcut
      simp only [List.map_cons, List.map_nil, List.mem_cons, List.not_mem_nil, or_false] at hm
      rcases hm with rfl | rfl
      · exact Or.inr ⟨(ratio_eq_iff _ _ _).mpr (by decide), Or.inl (by decide)⟩
      · exact Or.inr ⟨rfl, Or.inr rfl⟩)
    1 (by decide) (by decide)
    (fun j hj hji => by
      have hj0 : j = 0 := by omega
      subst hj0
      rw [show ([Entry.mk (ofString "abd") 1, Entry.mk (ofString "abe") 2].get ⟨0, hj⟩)
          = Entry.mk (ofString "abd") 1 from rfl]
      decide)

/-- C6: normalization lower-cases, replaces underscores with spaces before
punctuation removal (so underscores become spaces rather than vanishing),
removes every ASCII punctuation character, and trims; in particular
"Apple_Pie!!" normalizes to "apple pie". -/
theorem claim_C6_normalize_steps :
    normalizeStr (ofString "Apple_Pie!!") = ofString "apple pie" ∧
      (∀ s : Str, normalizeStr s = pyStrip (removePunct (replaceUnderscore (lowerStr s)))) ∧
      (∀ s : Str, ∀ c ∈ normalizeStr s, isPunct c = false ∧ c ≠ 95) ∧
      (∀ xs ys : Str, normalizeStr (xs ++ 95 :: ys) = normalizeStr (xs ++ 32 :: ys)) := by
  refine ⟨by decide, fun s => rfl, ?_, normalizeStr_underscore_space⟩
  intro s c hc
  exact ⟨(mem_normalizeStr hc).1, (mem_normalizeStr hc).2.2⟩

/-- C6 witness: the surviving character of "pie!"'s normal form is "p"
(code 112), which is neither punctuation nor an underscore. -/
theorem claim_C6_witness : isPunct 112 = false ∧ (112 : Nat) ≠ 95 :=
  claim_C6_normalize_steps.2.2.1 (ofString "pie!") 112 (by decide)

/-- C7: normalization is idempotent — its output is a fixed point. -/
theorem claim_C7_idempotent : ∀ s : Str, normalizeStr (normalizeStr s) = normalizeStr s :=
  normalizeStr_idem

/-- C8: internal whitespace is not collapsed: "Apple_Pie" normalizes to
"apple pie" while "apple  pie" keeps its double space, and the two results
are distinct strings. -/
theorem claim_C8_no_collapse :
    normalizeStr (ofString "Apple_Pie") = ofString "apple pie" ∧
      normalizeStr (ofString "apple  pie") = ofString "apple  pie" ∧
      ofString "apple pie" ≠ ofString "apple  pie" := by decide

/-- C9: the load-time column normalization is exactly the per-query
normalization: every table entry built from a raw name carries
the normalized name the query side would compute. -/
theorem claim_C9_refinement : ∀ s : Str, normalizeColumn s = normalizeStr s ∧
    ∀ cal : ℚ, (buildEntry s cal).normalized_name = normalizeStr s :=
  fun _ => ⟨rfl, fun _ => rfl⟩

/-- C10: a non-empty label normalizing to the empty string returns the FIRST
entry's calories on any non-empty table without empty names (the empty string
is a substring of every name, so the substring tier fires), not the no-result
sentinel and not the 200 default. -/
theorem claim_C10_empty_normal (label : Str) (table : List Entry) (hne : label ≠ [])
    (hnorm : normalizeStr label = [])
    (e : Entry) (rest : List Entry) (htab : table = e :: rest)
    (hnames : ∀ x ∈ table, x.normalized_name ≠ []) :
    fallback_lookup label table = some e.calories_per_100g := by
  subst htab
  apply lookup_substring_tier label (e :: rest) hne
  · rw [List.find?_eq_none]
    intro x hx
    rw [hnorm]
    simp only [beq_eq_false_iff_ne, ne_eq, Bool.not_eq_true]
    exact hnames x hx
  · have hp : (isSubstr e.normalized_name (normalizeStr label)
        || isSubstr (normalizeStr label) e.normalized_name) = true := by
      rw [hnorm, isSubstr_nil_left, Bool.or_true]
    have h0 : (0 : Nat) < (e :: rest).length := by simp
    have := find?_first (fun e2 => isSubstr e2.normalized_name (normalizeStr label)
        || isSubstr (normalizeStr label) e2.normalized_name) (e :: rest) 0 h0
      hp (fun j hj hji => absurd hji (Nat.not_lt_zero j))
    exact this

/-- C10 witness: the all-punctuation label "!!!" normalizes to the empty
string and returns the first entry's 266 on the pizza table. -/
theorem claim_C10_witness :
    fallback_lookup (ofString "!!!") [⟨ofString "pizza", 266⟩] = some 266 :=
  claim_C10_empty_normal (ofString "!!!") [⟨ofString "pizza", 266⟩] (by decide) (by decide)
    ⟨ofString "pizza", 266⟩ [] rfl (by decide)

/-! ### The fuel supplied to the matching-block recursion is always sufficient -/

/-- A common prefix is no longer than the left string. -/
theorem commonLen_le_left : ∀ (a b : Str), commonLen a b ≤ a.length
  | [], _ => by simp [commonLen]
  | _ :: _, [] => by simp [commonLen]
  | x :: xs, y :: ys => by
    simp only [commonLen, List.length_cons]
    split
    · exact Nat.succ_le_succ (commonLen_le_left xs ys)
    · omega

/-- A common prefix is no longer than the right string. -/
theorem commonLen_le_right : ∀ (a b : Str), commonLen a b ≤ b.length
  | [], _ => by simp [commonLen]
  | _ :: _, [] => by simp [commonLen]
  | x :: xs, y :: ys => by
    simp only [commonLen, List.length_cons]
    split
    · exact Nat.succ_le_succ (commonLen_le_right xs ys)
    · omega

/-- A nonzero best match lies inside both strings. -/
theorem bestMatch_bounds (a b : Str) :
    (bestMatch a b).2.2 ≠ 0 →
      (bestMatch a b).1 + (bestMatch a b).2.2 ≤ a.length ∧
      (bestMatch a b).2.1 + (bestMatch a b).2.2 ≤ b.length := by
  unfold bestMatch
  apply foldl_invariant
    (fun acc : Nat × Nat × Nat => acc.2.2 ≠ 0 →
      acc.1 + acc.2.2 ≤ a.length ∧ acc.2.1 + acc.2.2 ≤ b.length)
  · intro h
    exact absurd rfl h
  · intro acc i hacc hi
    apply foldl_invariant
      (fun acc : Nat × Nat × Nat => acc.2.2 ≠ 0 →
        acc.1 + acc.2.2 ≤ a.length ∧ acc.2.1 + acc.2.2 ≤ b.length)
    · exact hacc
    · intro acc2 j hacc2 hj
      unfold stepJ
      dsimp only
      split
      · intro _
        have hia : i < a.length := List.mem_range.mp hi
        have hjb : j < b.length := List.mem_range.mp hj
        have h1 := commonLen_le_left (a.drop i) (b.drop j)
        have h2 := commonLen_le_right (a.drop i) (b.drop j)
        rw [List.length_drop] at h1 h2
        exact ⟨by dsimp only; omega, by dsimp only; omega⟩
      · exact hacc2

/-- The matching-block total of two empty strings is zero at every fuel. -/
theorem matchTotalF_nil : ∀ f : Nat, matchTotalF f [] [] = 0
  | 0 => rfl
  | _ + 1 => rfl

/-- Any two sufficient fuels compute the same matching-block total. -/
theorem matchTotalF_fuel_high : ∀ (f1 f2 : Nat) (a b : Str),
    a.length + b.length ≤ f1 → a.length + b.length ≤ f2 →
    matchTotalF f1 a b = matchTotalF f2 a b := by
  intro f1
  induction f1 with
  | zero =>
    intro f2 a b h1 _
    have ha : a = [] := List.eq_nil_of_length_eq_zero (by omega)
    have hb : b = [] := List.eq_nil_of_length_eq_zero (by omega)
    subst ha hb
    rw [matchTotalF_nil, matchTotalF_nil]
  | succ g ih =>
    intro f2 a b h1 h2
    cases f2 with
    | zero =>
      have ha : a = [] := List.eq_nil_of_length_eq_zero (by omega)
      have hb : b = [] := List.eq_nil_of_length_eq_zero (by omega)
      subst ha hb
      rw [matchTotalF_nil, matchTotalF_nil]
    | succ h =>
      have hbb := bestMatch_bounds a b
      simp only [matchTotalF]
      rcases hbm : bestMatch a b with ⟨i, j, k⟩
      rw [hbm] at hbb
      dsimp only at hbb ⊢
      by_cases hk : k = 0
      · rw [if_pos hk, if_pos hk]
      · rw [if_neg hk, if_neg hk]
        obtain ⟨hik, hjk⟩ := hbb hk
        have hia : i < a.length := by omega
        have hjb : j < b.length := by omega
        have hti : (a.take i).length = i := by
          rw [List.length_take]
          omega
        have htj : (b.take j).length = j := by
          rw [List.length_take]
          omega
        have hdi : (a.drop (i + k)).length = a.length - (i + k) := List.length_drop _ _
        have hdj : (b.drop (j + k)).length = b.length - (j + k) := List.length_drop _ _
        have e1 : matchTotalF g (a.take i) (b.take j) = matchTotalF h (a.take i) (b.take j) := by
          apply ih
          · rw [hti, htj]
            omega
          · rw [hti, htj]
            omega
        have e2 : matchTotalF g (a.drop (i + k)) (b.drop (j + k))
            = matchTotalF h (a.drop (i + k)) (b.drop (j + k)) := by
          apply ih
          · rw [hdi, hdj]
            omega
          · rw [hdi, hdj]
            omega
        rw [e1, e2]

/-- The fuel `a.length + b.length` used by matchTotal never runs out: any
larger fuel computes the same value. -/
theorem matchTotal_fuel_sufficient (f : Nat) (a b : Str) (hf : a.length + b.length ≤ f) :
    matchTotalF f a b = matchTotal a b :=
  matchTotalF_fuel_high f (a.length + b.length) a b hf le_rfl
